import Mathlib

/-!
Verification of the runtime schema-validation engine specified for this
repository (a comparison of the arktype and zod validation libraries).
The repository's own sources (`src/comparison.ts`, `src/detailed-comparison.ts`)
are demo scripts: they author schemas and call the engine's `allows` /
`validate` entry points, but the engine itself lives in the external
`arktype` package.  Following the specification, the engine (constraint
AST, compiled validators, the two validation entry points, diagnostics)
is modelled here from the spec's own words; the demo functions
(`createUser`, `updateUser`, the schema literals) are translated directly
from the repository's source.

Values flowing across the validation boundary are untyped JavaScript-like
values, modelled as a tagged union.  Numbers are modelled as rationals so
that integrality constraints (`number.integer`) are meaningful.
-/

namespace ArkSpec

/-- Modelled from the spec: the primitive-type tokens of the constraint
grammar (`string`, `number`, `boolean`). -/
inductive PrimKind where
  | string
  | number
  | boolean
deriving DecidableEq, Repr

/-- Modelled from the spec: the kind of quantity a `Range` constraint
bounds — a numeric value (optionally required to be integral, as in
`number.integer`) or a string's length. -/
inductive RangeKind where
  | number (integer : Bool)
  | strLength
deriving DecidableEq, Repr

/-- Modelled from the spec: string-format constraints (`string.email`). -/
inductive FormatKind where
  | email
deriving DecidableEq, Repr

/-- Modelled from the spec: the `ruleKind` tag carried by a Violation. -/
inductive RuleKind where
  | typeMismatch
  | rangeViolation
  | formatViolation
  | missingRequiredField
  | unionExhausted
  | extraField
deriving DecidableEq, Repr

/-- Modelled from the spec: one step of a violation path — a field name
or an array/tuple index. -/
inductive PathSeg where
  | field (name : String)
  | index (i : Nat)
deriving DecidableEq, Repr

/-- Modelled from the spec: a dynamic, duck-typed input value at the
validation boundary — a tagged union over null, boolean, number, string,
sequence and mapping. -/
inductive Value where
  | null
  | bool (b : Bool)
  | num (q : Rat)
  | str (s : String)
  | seq (elems : List Value)
  | map (fields : List (String × Value))

/-- Modelled from the spec: one inclusive-or-exclusive range bound
(the bound's value and whether the comparison is inclusive). -/
abbrev RangeBound := Rat × Bool

mutual

/-- Modelled from the spec: the ConstraintNode AST, the parsed form of a
single constraint expression. -/
inductive ConstraintNode where
  | primitive (k : PrimKind)
  | range (k : RangeKind) (lo hi : Option RangeBound)
  | stringFormat (fmt : FormatKind)
  | literal (s : String)
  | union (alts : ConstraintList)
  | arrayOf (inner : ConstraintNode)
  | tuple (items : ConstraintList)
  | optional (inner : ConstraintNode)

/-- Modelled from the spec: an ordered sequence of ConstraintNodes, used
for union alternatives and tuple positions. -/
inductive ConstraintList where
  | nil
  | cons (head : ConstraintNode) (tail : ConstraintList)

end

mutual

/-- Modelled from the spec: the CompiledValidator tree — each node is a
LeafValidator wrapping one ConstraintNode, or an ObjectValidator mapping
field names to child validators with a per-field optionality flag. -/
inductive CompiledValidator where
  | leaf (c : ConstraintNode)
  | object (fields : FieldList)

/-- Modelled from the spec: the field table of an ObjectValidator: field
name, optionality flag, child validator. -/
inductive FieldList where
  | nil
  | cons (name : String) (opt : Bool) (child : CompiledValidator) (tail : FieldList)

end

/-- Modelled from the spec: the Violation record — path from the root,
rule-kind tag, human-readable expected-constraint summary, and the
offending value. -/
structure Violation where
  path : List PathSeg
  rule : RuleKind
  expected : String
  actual : Value

/-- Modelled from the spec: the outcome of the full diagnostic entry
point — `Valid(normalizedValue)` or `Invalid(DiagnosticsReport)`. -/
inductive ValidationOutcome where
  | valid (value : Value)
  | invalid (report : List Violation)

/-! ## Leaf checks -/

/-- Modelled from the spec: exact runtime-kind check, no coercion. -/
def primCheck : PrimKind → Value → Bool
  | .string, .str _ => true
  | .number, .num _ => true
  | .boolean, .bool _ => true
  | _, _ => false

/-- A rational is integral when its reduced denominator is 1. -/
def isInteger (q : Rat) : Bool := q.den == 1

/-- Modelled from the spec: the quantity a range constraint bounds, when
the underlying primitive type check passes (`none` when it fails). -/
def rangeMeasure : RangeKind → Value → Option Rat
  | .number intReq, .num q => if intReq && !(isInteger q) then none else some q
  | .strLength, .str s => some (s.length : Rat)
  | _, _ => none

/-- Low bound check with declared inclusivity. -/
def loOk : Option RangeBound → Rat → Bool
  | none, _ => true
  | some (a, inc), m => if inc then decide (a ≤ m) else decide (a < m)

/-- High bound check with declared inclusivity. -/
def hiOk : Option RangeBound → Rat → Bool
  | none, _ => true
  | some (b, inc), m => if inc then decide (m ≤ b) else decide (m < b)

/-- Modelled from the spec: a Range first requires the underlying
primitive type check, then the bound check with per-side inclusivity. -/
def rangeCheck (k : RangeKind) (lo hi : Option RangeBound) (v : Value) : Bool :=
  match rangeMeasure k v with
  | none => false
  | some m => loOk lo m && hiOk hi m

/-- The local part of a candidate email address: everything before the
first `@`. -/
def emailLocalPart (s : String) : List Char :=
  s.toList.takeWhile (fun c => c != '@')

/-- The domain part of a candidate email address: everything after the
first `@`. -/
def emailDomainPart (s : String) : List Char :=
  (s.toList.dropWhile (fun c => c != '@')).drop 1

/-- Modelled from the spec: email format = presence of exactly one `@`
with non-empty local and domain parts, the domain containing at least
one `.`. -/
def emailCheck (s : String) : Bool :=
  (s.toList.count '@' == 1)
    && !(emailLocalPart s).isEmpty
    && !(emailDomainPart s).isEmpty
    && (emailDomainPart s).contains '.'

/-- Modelled from the spec: format-specific check; requires string type
first. -/
def formatCheck : FormatKind → Value → Bool
  | .email, .str s => emailCheck s
  | .email, _ => false

/-- Modelled from the spec: a literal matches by strict equality, no
coercion — only the exact string value is accepted. -/
def litCheck (s : String) : Value → Bool
  | .str t => t == s
  | _ => false

/-! ## Diagnostics rendering -/

/-- Render a rational for display. -/
def ratStr (q : Rat) : String :=
  if q.den == 1 then toString q.num else toString q.num ++ "/" ++ toString q.den

/-- The grammar token for the quantity a range bounds. -/
def rangeBase : RangeKind → String
  | .number true => "number.integer"
  | .number false => "number"
  | .strLength => "string"

/-- Human-readable rendering of a range constraint. -/
def rangeDesc (k : RangeKind) (lo hi : Option RangeBound) : String :=
  (match lo with
   | none => ""
   | some (a, inc) => ratStr a ++ (if inc then " <= " else " < "))
  ++ rangeBase k
  ++ (match hi with
      | none => ""
      | some (b, inc) => (if inc then " <= " else " < ") ++ ratStr b)

mutual

/-- Modelled from the spec: human-readable summary of a constraint, used
as a Violation's `expectedDescription`. -/
def describeC : ConstraintNode → String
  | .primitive .string => "string"
  | .primitive .number => "number"
  | .primitive .boolean => "boolean"
  | .range k lo hi => rangeDesc k lo hi
  | .stringFormat .email => "string.email"
  | .literal s => "'" ++ s ++ "'"
  | .union alts => describeAlts alts
  | .arrayOf c => describeC c ++ "[]"
  | .tuple items => "[" ++ describeItems items ++ "]"
  | .optional c => describeC c ++ "?"

/-- Render union alternatives joined by ` | ` — the union-exhausted
message lists all attempted alternatives. -/
def describeAlts : ConstraintList → String
  | .nil => ""
  | .cons c .nil => describeC c
  | .cons c cs => describeC c ++ " | " ++ describeAlts cs

/-- Render tuple positions joined by `, `. -/
def describeItems : ConstraintList → String
  | .nil => ""
  | .cons c .nil => describeC c
  | .cons c cs => describeC c ++ ", " ++ describeItems cs

end

/-- Shallow (truncated) rendering of a value for display. -/
def shallowRender : Value → String
  | .null => "null"
  | .bool true => "true"
  | .bool false => "false"
  | .num q => ratStr q
  | .str s => "\"" ++ s ++ "\""
  | .seq _ => "an array"
  | .map _ => "an object"

/-- Render a path as dot-joined segments. -/
def pathStr (p : List PathSeg) : String :=
  String.intercalate "." (p.map (fun s => match s with
    | .field name => name
    | .index i => toString i))

/-- Modelled from the spec: the stable rendering of one violation:
`path: expected <expectedDescription>, got <actualValue>`. -/
def describeViolation (v : Violation) : String :=
  pathStr v.path ++ ": expected " ++ v.expected ++ ", got " ++ shallowRender v.actual

/-- Modelled from the spec: rendering of a whole diagnostics report. -/
def describeReport (report : List Violation) : String :=
  String.intercalate "; " (report.map describeViolation)

/-! ## Validator engine: boolean fast path -/

mutual

/-- Modelled from the spec: the short-circuiting boolean admissibility
check for one constraint node (the engine's fast path, no path/message
construction). -/
def allowsC : ConstraintNode → Value → Bool
  | .primitive k, v => primCheck k v
  | .range k lo hi, v => rangeCheck k lo hi v
  | .stringFormat fmt, v => formatCheck fmt v
  | .literal s, v => litCheck s v
  | .union alts, v => allowsAny alts v
  | .arrayOf c, .seq xs => xs.all (fun x => allowsC c x)
  | .arrayOf _, _ => false
  | .tuple items, .seq xs => allowsTuple items xs
  | .tuple _, _ => false
  | .optional c, v => allowsC c v

/-- A value is admitted by a union when some alternative admits it. -/
def allowsAny : ConstraintList → Value → Bool
  | .nil, _ => false
  | .cons c cs, v => allowsC c v || allowsAny cs v

/-- A sequence matches a tuple when it has exactly the declared length
and each position matches its constraint. -/
def allowsTuple : ConstraintList → List Value → Bool
  | .nil, [] => true
  | .cons c cs, x :: xs => allowsC c x && allowsTuple cs xs
  | _, _ => false

end

/-- First-match association lookup in an input mapping. -/
def lookupField (name : String) : List (String × Value) → Option Value
  | [] => none
  | (n, x) :: rest => if n = name then some x else lookupField name rest

mutual

/-- Modelled from the spec: boolean admissibility for a compiled
validator tree. -/
def allowsV : CompiledValidator → Value → Bool
  | .leaf c, v => allowsC c v
  | .object fields, .map fs => allowsFields fields fs
  | .object _, _ => false

/-- Every declared field must be present and admitted, or absent and
optional; extra input fields are tolerated. -/
def allowsFields : FieldList → List (String × Value) → Bool
  | .nil, _ => true
  | .cons name opt child rest, fs =>
      (match lookupField name fs with
       | some x => allowsV child x
       | none => opt)
      && allowsFields rest fs

end

/-! ## Validator engine: full diagnostic path -/

/-- Extend a violation's path downward through a field name. -/
def atField (name : String) (v : Violation) : Violation :=
  { v with path := PathSeg.field name :: v.path }

/-- Extend a violation's path downward through a sequence index. -/
def atIndex (i : Nat) (v : Violation) : Violation :=
  { v with path := PathSeg.index i :: v.path }

/-- Length of a constraint list (a tuple's declared length). -/
def clLength : ConstraintList → Nat
  | .nil => 0
  | .cons _ cs => clLength cs + 1

mutual

/-- Modelled from the spec: the full diagnostic check for one constraint
node.  It does not short-circuit across sequence elements: every
violation is collected, with path context.  An empty result means the
value satisfies the constraint. -/
def validateC : ConstraintNode → Value → List Violation
  | .primitive k, v =>
      if primCheck k v then [] else
        [⟨[], .typeMismatch, describeC (.primitive k), v⟩]
  | .range k lo hi, v =>
      if rangeCheck k lo hi v then [] else
        [⟨[], .rangeViolation, rangeDesc k lo hi, v⟩]
  | .stringFormat fmt, v =>
      if formatCheck fmt v then [] else
        [⟨[], .formatViolation, describeC (.stringFormat fmt), v⟩]
  | .literal s, v =>
      if litCheck s v then [] else
        [⟨[], .unionExhausted, "'" ++ s ++ "'", v⟩]
  | .union alts, v =>
      if allowsAny alts v then [] else
        [⟨[], .unionExhausted, describeAlts alts, v⟩]
  | .arrayOf c, .seq xs =>
      (xs.enum.map (fun p => (validateC c p.2).map (atIndex p.1))).flatten
  | .arrayOf c, v => [⟨[], .typeMismatch, describeC (.arrayOf c), v⟩]
  | .tuple items, .seq xs =>
      if xs.length = clLength items then validateTupleF items 0 xs else
        [⟨[], .typeMismatch, describeC (.tuple items), .seq xs⟩]
  | .tuple items, v => [⟨[], .typeMismatch, describeC (.tuple items), v⟩]
  | .optional c, v => validateC c v

/-- Positional tuple validation, carrying the current index (only
reached when the length matches the declared length). -/
def validateTupleF : ConstraintList → Nat → List Value → List Violation
  | .nil, _, _ => []
  | .cons _ _, _, [] => []
  | .cons c cs, i, x :: xs =>
      (validateC c x).map (atIndex i) ++ validateTupleF cs (i + 1) xs

end

/-- Summary of a validator for messages (children of object validators). -/
def childDesc : CompiledValidator → String
  | .leaf c => describeC c
  | .object _ => "an object"

mutual

/-- Modelled from the spec: the full diagnostic check for a compiled
validator tree.  Continues across sibling fields to collect every
violation. -/
def validateV : CompiledValidator → Value → List Violation
  | .leaf c, v => validateC c v
  | .object fields, .map fs => validateFields fields fs
  | .object _, v => [⟨[], .typeMismatch, "an object", v⟩]

/-- Every declared field is checked: absent and required emits
`missing-required-field`; present recurses with the path extended by the
field name; absent and optional passes trivially. -/
def validateFields : FieldList → List (String × Value) → List Violation
  | .nil, _ => []
  | .cons name opt child rest, fs =>
      (match lookupField name fs with
       | some x => (validateV child x).map (atField name)
       | none =>
           if opt then [] else
             [⟨[PathSeg.field name], .missingRequiredField, childDesc child, Value.null⟩])
      ++ validateFields rest fs

end

/-! ## Public entry points -/

/-- Modelled from the spec: `allows(validator, value) -> boolean` — true
iff the value satisfies every constraint (the hot-path boolean check). -/
def allows (v : CompiledValidator) (x : Value) : Bool := allowsV v x

/-- Modelled from the spec: `validate(validator, value)` — `Valid` with
the (un-coerced) input value, or `Invalid` with the full diagnostics
report.  All per-value failures are returned as data, never thrown. -/
def validate (v : CompiledValidator) (x : Value) : ValidationOutcome :=
  match validateV v x with
  | [] => .valid x
  | vs => .invalid vs

/-! ## Soundness: the fast path and the diagnostic path agree -/

/-- A `FieldList`-only induction principle (children are not unfolded),
derived from the mutual recursor. -/
theorem FieldList.inductionOn (P : FieldList → Prop) (hnil : P .nil)
    (hcons : ∀ name opt child tail, P tail → P (.cons name opt child tail)) :
    ∀ fl : FieldList, P fl :=
  fun fl =>
    FieldList.rec (motive_1 := fun _ => True) (motive_2 := P)
      (fun _ => trivial) (fun _ _ => trivial) hnil
      (fun name opt child tail _ ht => hcons name opt child tail ht) fl

/-- The boolean fast path accepts a constraint exactly when the
diagnostic path produces no violation. -/
theorem allowsC_iff_validateC (c : ConstraintNode) :
    ∀ v, allowsC c v = true ↔ validateC c v = [] := by
  induction c using ConstraintNode.rec
    (motive_2 := fun cs => ∀ i xs, allowsTuple cs xs = true ↔
      (xs.length = clLength cs ∧ validateTupleF cs i xs = [])) with
  | primitive k =>
      intro v
      by_cases h : primCheck k v <;> simp [allowsC, validateC, h]
  | range k lo hi =>
      intro v
      by_cases h : rangeCheck k lo hi v <;> simp [allowsC, validateC, h]
  | stringFormat fmt =>
      intro v
      by_cases h : formatCheck fmt v <;> simp [allowsC, validateC, h]
  | literal s =>
      intro v
      by_cases h : litCheck s v <;> simp [allowsC, validateC, h]
  | union alts ih =>
      intro v
      by_cases h : allowsAny alts v <;> simp [allowsC, validateC, h]
  | arrayOf c ih =>
      intro v
      cases v with
      | seq xs =>
          simp only [validateC, List.flatten_eq_nil_iff, List.forall_mem_map,
            List.map_eq_nil_iff, List.forall_mem_enum]
          simp only [allowsC, List.all_eq_true, List.forall_mem_iff_getElem]
          exact forall_congr' fun i => forall_congr' fun hi => ih _
      | null => simp [allowsC, validateC]
      | bool b => simp [allowsC, validateC]
      | num q => simp [allowsC, validateC]
      | str s => simp [allowsC, validateC]
      | map fs => simp [allowsC, validateC]
  | tuple items ih =>
      intro v
      cases v with
      | seq xs =>
          by_cases h : xs.length = clLength items
          · simp only [allowsC, validateC]
            rw [if_pos h, ih 0 xs]
            simp [h]
          · simp only [allowsC, validateC]
            rw [if_neg h]
            constructor
            · intro hT
              exact absurd ((ih 0 xs).mp hT).1 h
            · intro hFalse
              simp at hFalse
      | null => simp [allowsC, validateC]
      | bool b => simp [allowsC, validateC]
      | num q => simp [allowsC, validateC]
      | str s => simp [allowsC, validateC]
      | map fs => simp [allowsC, validateC]
  | optional c ih =>
      intro v
      simpa [allowsC, validateC] using ih v
  | nil =>
      rename_i i xs
      cases xs <;> simp [allowsTuple, validateTupleF, clLength]
  | cons c cs ihc ihcs =>
      rename_i i xs
      cases xs with
      | nil => simp [allowsTuple, validateTupleF, clLength]
      | cons x rest =>
          simp only [allowsTuple, validateTupleF, Bool.and_eq_true, List.append_eq_nil,
            List.map_eq_nil_iff, List.length_cons, clLength, ihc x, ihcs (i + 1) rest,
            Nat.add_right_cancel_iff]
          tauto

/-- The boolean fast path accepts a compiled validator exactly when the
diagnostic path produces no violation. -/
theorem allowsV_iff_validateV (v : CompiledValidator) :
    ∀ x, allowsV v x = true ↔ validateV v x = [] := by
  induction v using CompiledValidator.rec
    (motive_2 := fun fl => ∀ fs, allowsFields fl fs = true ↔ validateFields fl fs = []) with
  | leaf c =>
      intro x
      simp [allowsV, validateV, allowsC_iff_validateC c x]
  | object fl ih =>
      intro x
      cases x with
      | map fs => simp [allowsV, validateV, ih fs]
      | null => simp [allowsV, validateV]
      | bool b => simp [allowsV, validateV]
      | num q => simp [allowsV, validateV]
      | str s => simp [allowsV, validateV]
      | seq xs => simp [allowsV, validateV]
  | nil =>
      simp [allowsFields, validateFields]
  | cons name opt child rest ihc ihr =>
      rename_i fs
      simp only [allowsFields, validateFields, Bool.and_eq_true, List.append_eq_nil]
      cases h : lookupField name fs with
      | some x => simp [h, ihc x, ihr fs, List.map_eq_nil_iff]
      | none => cases opt <;> simp [h, ihr fs]

/-! ## Schema descriptions and the schema compiler -/

mutual

/-- Modelled from the spec: the user-authored SchemaDescription — a tree
whose leaves are (parsed) constraint expressions and whose interior
nodes map field names to nested descriptions. -/
inductive SchemaDescription where
  | leaf (c : ConstraintNode)
  | node (fields : SchemaFields)

/-- Modelled from the spec: the ordered field table of an interior
SchemaDescription node. -/
inductive SchemaFields where
  | nil
  | cons (name : String) (sub : SchemaDescription) (tail : SchemaFields)

end

/-- The field names declared at one level of a schema description. -/
def sfNames : SchemaFields → List String
  | .nil => []
  | .cons name _ tail => name :: sfNames tail

mutual

/-- Modelled from the spec: compile-time constraint checking — a numeric
range whose low bound exceeds its high bound fails compilation, before
any input arrives. -/
def checkC : ConstraintNode → Except String Unit
  | .primitive _ => .ok ()
  | .range _ lo hi =>
      match lo, hi with
      | some (a, _), some (b, _) =>
          if a ≤ b then .ok () else .error "range low bound exceeds high bound"
      | _, _ => .ok ()
  | .stringFormat _ => .ok ()
  | .literal _ => .ok ()
  | .union alts => checkAlts alts
  | .arrayOf c => checkC c
  | .tuple items => checkAlts items
  | .optional c => checkC c

/-- Check every constraint in a list. -/
def checkAlts : ConstraintList → Except String Unit
  | .nil => .ok ()
  | .cons c cs =>
      match checkC c with
      | .error e => .error e
      | .ok _ => checkAlts cs

end

mutual

/-- Modelled from the spec: `compile(schema) -> CompiledValidator`,
depth-first; fails when a field name is duplicated at the same level or
a leaf constraint is malformed.  Compilation never inspects input
data. -/
def compile : SchemaDescription → Except String CompiledValidator
  | .leaf c =>
      match checkC c with
      | .error e => .error e
      | .ok _ => .ok (.leaf c)
  | .node fs =>
      match compileFields fs with
      | .error e => .error e
      | .ok fl => .ok (.object fl)

/-- Compile a field table, extracting the per-field optionality flag
from `Optional` markers produced by the grammar parser. -/
def compileFields : SchemaFields → Except String FieldList
  | .nil => .ok .nil
  | .cons name (.leaf (.optional c)) tail =>
      if name ∈ sfNames tail then .error ("duplicate field " ++ name)
      else
        match checkC c, compileFields tail with
        | .ok _, .ok fl => .ok (.cons name true (.leaf c) fl)
        | .error e, _ => .error e
        | _, .error e => .error e
  | .cons name sub tail =>
      if name ∈ sfNames tail then .error ("duplicate field " ++ name)
      else
        match compile sub, compileFields tail with
        | .ok cv, .ok fl => .ok (.cons name false cv fl)
        | .error e, _ => .error e
        | _, .error e => .error e

end

/-! ## The demo layer, translated from `src/comparison.ts` -/

/-- JavaScript truthiness of a runtime value: `false`, `0`, the empty
string, and `null`/`undefined` are falsy; every object (including every
array and every error object) is truthy. -/
def jsTruthy : Value → Bool
  | .null => false
  | .bool b => b
  | .num q => decide (q ≠ 0)
  | .str s => !s.isEmpty
  | .seq _ => true
  | .map _ => true

/-- Modelled from the spec: the error value returned by a schema call on
invalid input — an object carrying the rendered diagnostics report (the
arktype `ArkErrors` object). -/
def errorsValue (report : List Violation) : Value :=
  .map [("summary", .str (describeReport report))]

/-- Modelled from the spec: invoking a compiled schema as a function
(`UserSchema(data)`): on success it returns the validated data, on
failure an errors object — in either case a plain value, never a thrown
exception. -/
def arkCall (t : CompiledValidator) (x : Value) : Value :=
  match validateV t x with
  | [] => x
  | vs => errorsValue vs

/-- The `preferences` sub-schema of the demo's `UserSchema`
(`src/comparison.ts`). -/
def PreferencesDesc : SchemaFields :=
  .cons "theme"
    (.leaf (.union (.cons (.literal "light") (.cons (.literal "dark") .nil))))
    (.cons "notifications" (.leaf (.primitive .boolean))
      (.cons "language"
        (.leaf (.union (.cons (.literal "en") (.cons (.literal "fr")
          (.cons (.literal "es") (.cons (.literal "de") .nil))))))
        .nil))

/-- The demo's `UserSchema` from `src/comparison.ts`: id string, name
string, email `string.email`, age `number.integer >= 18`, nested
preferences object. -/
def UserSchemaDesc : SchemaDescription :=
  .node
    (.cons "id" (.leaf (.primitive .string))
      (.cons "name" (.leaf (.primitive .string))
        (.cons "email" (.leaf (.stringFormat .email))
          (.cons "age" (.leaf (.range (.number true) (some (18, true)) none))
            (.cons "preferences" (.node PreferencesDesc) .nil)))))

/-- The compiled form of the demo's `UserSchema`. -/
def UserSchemaV : CompiledValidator :=
  .object
    (.cons "id" false (.leaf (.primitive .string))
      (.cons "name" false (.leaf (.primitive .string))
        (.cons "email" false (.leaf (.stringFormat .email))
          (.cons "age" false (.leaf (.range (.number true) (some (18, true)) none))
            (.cons "preferences" false
              (.object
                (.cons "theme" false
                  (.leaf (.union (.cons (.literal "light") (.cons (.literal "dark") .nil))))
                  (.cons "notifications" false (.leaf (.primitive .boolean))
                    (.cons "language" false
                      (.leaf (.union (.cons (.literal "en") (.cons (.literal "fr")
                        (.cons (.literal "es") (.cons (.literal "de") .nil))))))
                      .nil))))
              .nil)))))

/-- Compiling the demo schema description yields the expected compiled
validator. -/
theorem compile_UserSchemaDesc : compile UserSchemaDesc = .ok UserSchemaV := by rfl

/-- `createUser` from `src/comparison.ts` (lines 182–193): calls the
schema on the raw input, throws "Invalid user data" only when the call
result is falsy, and pushes the raw `data` argument (not the parse
result) onto the users array, returning the call result. -/
def createUser (users : List Value) (data : Value) :
    Except String (List Value × Value) :=
  let result := arkCall UserSchemaV data
  if !jsTruthy result then
    .error "Invalid user data"
  else
    .ok (users ++ [data], result)

/-- The predicate `user.id === id` used by `updateUser`'s `findIndex`
(strict equality: only a string id equal to `id` matches). -/
def userIdIs (id : String) (u : Value) : Bool :=
  match u with
  | .map fs =>
      match lookupField "id" fs with
      | some (.str s) => s == id
      | _ => false
  | _ => false

/-- Does an object literal's field list carry the given key? -/
def hasKey (k : String) : List (String × Value) → Bool
  | [] => false
  | (n, _) :: rest => n == k || hasKey k rest

/-- JavaScript object spread `{...a, ...b}` on field lists: `a`'s keys
in order (with `b`'s value where `b` overrides), then `b`'s new keys. -/
def spreadMerge (a b : List (String × Value)) : List (String × Value) :=
  a.map (fun p =>
    match lookupField p.1 b with
    | some w => (p.1, w)
    | none => p)
  ++ b.filter (fun p => !hasKey p.1 a)

/-- The merged value `{ ...existingUser, ...data }` built by
`updateUser`; spreading a non-object contributes no own fields. -/
def mergeValues : Value → Value → Value
  | .map a, .map b => .map (spreadMerge a b)
  | _, .map b => .map b
  | .map a, _ => .map a
  | _, _ => .map []

/-- `updateUser` from `src/comparison.ts` (lines 196–217): finds the
stored user by id ("User not found" otherwise), merges it with the
update payload, calls the schema on the merged data — and then throws
"Invalid user data for update" when the call result is TRUTHY, updating
the stored user only in the falsy branch. -/
def updateUser (users : List Value) (id : String) (data : Value) :
    Except String (List Value × Value) :=
  match List.findIdx? (userIdIs id) users with
  | none => .error "User not found"
  | some index =>
      let existingUser := users.getD index .null
      let updatedData := mergeValues existingUser data
      let result := arkCall UserSchemaV updatedData
      if jsTruthy result then
        .error "Invalid user data for update"
      else
        .ok (users.set index result, result)

/-! ## Helper notions and lemmas for the claims -/

/-- Remove every field with the given name from an input mapping. -/
def removeField (name : String) : List (String × Value) → List (String × Value)
  | [] => []
  | (n, x) :: rest =>
      if n = name then removeField name rest else (n, x) :: removeField name rest

/-- Is every declaration of the given field in the table marked
optional? -/
def allOptional : FieldList → String → Bool
  | .nil, _ => true
  | .cons n o _ t, f => (if n = f then o else true) && allOptional t f

/-- The first declaration of a field in an object validator's table. -/
def specLookup (f : String) : FieldList → Option (Bool × CompiledValidator)
  | .nil => none
  | .cons n o c t => if n = f then some (o, c) else specLookup f t

theorem lookupField_removeField (n f : String) (fs : List (String × Value)) :
    lookupField n (removeField f fs) = if n = f then none else lookupField n fs := by
  induction fs with
  | nil => simp [removeField, lookupField]
  | cons p rest ih =>
      obtain ⟨m, x⟩ := p
      rw [removeField]
      by_cases hmf : m = f
      · rw [if_pos hmf, ih]
        by_cases hnf : n = f
        · simp [hnf]
        · have hmn : ¬ m = n := fun h => hnf (h.symm.trans hmf)
          rw [if_neg hnf, if_neg hnf, lookupField, if_neg hmn]
      · rw [if_neg hmf, lookupField]
        by_cases hmn : m = n
        · have hnf : ¬ n = f := fun h => hmf (hmn.trans h)
          rw [if_pos hmn, if_neg hnf, lookupField, if_pos hmn]
        · rw [if_neg hmn, ih]
          by_cases hnf : n = f
          · simp [hnf]
          · rw [if_neg hnf, if_neg hnf, lookupField, if_neg hmn]

/-- Removing an all-optional field from an input that validates cleanly
keeps it validating cleanly. -/
theorem validateFields_removeField (f : String) (fl : FieldList) :
    ∀ fs, allOptional fl f = true → validateFields fl fs = [] →
      validateFields fl (removeField f fs) = [] := by
  induction fl using FieldList.inductionOn with
  | hnil => intro fs _ _; simp [validateFields]
  | hcons n o c t ih =>
      intro fs hopt hval
      rw [allOptional, Bool.and_eq_true] at hopt
      rw [validateFields, List.append_eq_nil] at hval
      rw [validateFields, List.append_eq_nil]
      refine ⟨?_, ih fs hopt.2 hval.2⟩
      rw [lookupField_removeField]
      by_cases hnf : n = f
      · have ho : o = true := by simpa [hnf] using hopt.1
        simp [hnf, ho]
      · rw [if_neg hnf]
        exact hval.1

/-- Supplying a declared field with a value its child validator rejects
makes the whole object validation fail. -/
theorem validateFields_violating (f : String) (fl : FieldList) :
    ∀ (o : Bool) (c : CompiledValidator) (fs : List (String × Value)) (x : Value),
      specLookup f fl = some (o, c) → lookupField f fs = some x →
        validateV c x ≠ [] → validateFields fl fs ≠ [] := by
  induction fl using FieldList.inductionOn with
  | hnil => intro o c fs x hspec; simp [specLookup] at hspec
  | hcons n o' c' t ih =>
      intro o c fs x hspec hx hbad hall
      rw [validateFields, List.append_eq_nil] at hall
      rw [specLookup] at hspec
      by_cases hnf : n = f
      · rw [if_pos hnf] at hspec
        obtain ⟨rfl, rfl⟩ : o' = o ∧ c' = c := by
          cases hspec; exact ⟨rfl, rfl⟩
        have h1 := hall.1
        rw [hnf, hx, List.map_eq_nil_iff] at h1
        exact hbad h1
      · rw [if_neg hnf] at hspec
        exact ih o c fs x hspec hx hbad hall.2

/-- A schema call on an object validator always returns a truthy value:
on success the validated data (necessarily an object), on failure the
errors object. -/
theorem jsTruthy_arkCall_object (fl : FieldList) (x : Value) :
    jsTruthy (arkCall (.object fl) x) = true := by
  unfold arkCall
  cases h : validateV (.object fl) x with
  | nil =>
      cases x with
      | map fs => rfl
      | null => simp [validateV] at h
      | bool b => simp [validateV] at h
      | num q => simp [validateV] at h
      | str s => simp [validateV] at h
      | seq xs => simp [validateV] at h
  | cons a t => rfl

/-! ## Concrete schemas used by the testable scenarios -/

/-- The parsed form of the constraint `17 < number.integer <= 120`
(the `age` field of `ArkAdvancedUser` in `src/comparison.ts`). -/
def age17to120 : ConstraintNode :=
  .range (.number true) (some (17, false)) (some (120, true))

/-- The schema of concrete scenario 1: an object with an `age` field
constrained by `17 < number.integer <= 120`. -/
def ageSchemaV : CompiledValidator :=
  .object (.cons "age" false (.leaf age17to120) .nil)

/-- The schema of concrete scenario 2: an object with an `email` field
constrained by `string.email`. -/
def emailSchemaV : CompiledValidator :=
  .object (.cons "email" false (.leaf (.stringFormat .email)) .nil)

/-- The parsed form of the union `'pending'|'active'|'inactive'`
(the demo's `ArkStatus` in `src/comparison.ts`). -/
def statusUnion : ConstraintNode :=
  .union (.cons (.literal "pending")
    (.cons (.literal "active") (.cons (.literal "inactive") .nil)))

/-- The schema of concrete scenario 3: an object with a `status` field
constrained by the status union. -/
def statusSchemaV : CompiledValidator :=
  .object (.cons "status" false (.leaf statusUnion) .nil)

/-- The field table of concrete scenario 4: a required `name` and an
optional `bio`, both strings. -/
def bioFields : FieldList :=
  .cons "name" false (.leaf (.primitive .string))
    (.cons "bio" true (.leaf (.primitive .string)) .nil)

/-- The schema of concrete scenario 4. -/
def bioSchemaV : CompiledValidator := .object bioFields

/-- A user value accepted by the demo's `UserSchema` (the valid creation
example of `src/comparison.ts`). -/
def validUserV : Value :=
  .map [("id", .str "user1"), ("name", .str "John Doe"),
    ("email", .str "john@example.com"), ("age", .num 25),
    ("preferences", .map [("theme", .str "dark"), ("notifications", .bool true),
      ("language", .str "en")])]

/-! ## The claims -/

/-- C1: for every CompiledValidator `v` and value `x`, the boolean entry
point `allows v x` returns true exactly when `validate v x` yields
`Valid` — the short-circuiting fast path and the full diagnostic path
agree on acceptance for all inputs. -/
theorem claimC1_allows_iff_validate_valid (v : CompiledValidator) (x : Value) :
    allows v x = true ↔ ∃ w, validate v x = ValidationOutcome.valid w := by
  unfold allows validate
  rw [allowsV_iff_validateV v x]
  cases hv : validateV v x with
  | nil => simp
  | cons a t => simp

/-- C2: the demo's `updateUser` inverts its success/failure check: after
parsing the merged data with `UserSchema`, a truthy (successful) parse
result is treated as the error case, so for every stored user id and
every update payload whose merge parses successfully, `updateUser`
throws "Invalid user data for update" instead of updating the
database. -/
theorem claimC2_updateUser_inverted_check (users : List Value) (id : String)
    (data : Value) (i : Nat)
    (hfind : List.findIdx? (userIdIs id) users = some i)
    (_hparse : validateV UserSchemaV (mergeValues (users.getD i .null) data) = []) :
    updateUser users id data = .error "Invalid user data for update" := by
  have ht : ∀ y, jsTruthy (arkCall UserSchemaV y) = true := fun y =>
    jsTruthy_arkCall_object _ y
  unfold updateUser
  rw [hfind]
  simp [ht]

/-- Witness for C2: one stored valid user, updated with an empty payload
(whose merge is the stored user itself and parses successfully) — the
update still throws. -/
theorem claimC2_witness :
    updateUser [validUserV] "user1" (Value.map []) =
      .error "Invalid user data for update" :=
  claimC2_updateUser_inverted_check [validUserV] "user1" (Value.map []) 0
    (by rfl) (by rfl)

/-- C3: for the schema with `age: 17 < number.integer <= 120`, input
`age = 17` yields Invalid with exactly one range-violation at path
`["age"]` and `age = 18` yields Valid; in general for `a < number <= b`
with `a < b`, the low boundary `a` fails with a range-violation and the
high boundary `b` passes. -/
theorem claimC3_range_boundaries (a b : Rat) (hab : a < b) :
    validate ageSchemaV (.map [("age", .num 17)]) =
        .invalid [⟨[.field "age"], .rangeViolation, "17 < number.integer <= 120", .num 17⟩]
      ∧ validate ageSchemaV (.map [("age", .num 18)]) = .valid (.map [("age", .num 18)])
      ∧ validateC (.range (.number false) (some (a, false)) (some (b, true))) (.num a) =
          [⟨[], .rangeViolation,
            rangeDesc (.number false) (some (a, false)) (some (b, true)), .num a⟩]
      ∧ validateC (.range (.number false) (some (a, false)) (some (b, true))) (.num b) = [] := by
  refine ⟨by rfl, by rfl, ?_, ?_⟩
  · simp [validateC, rangeCheck, rangeMeasure, isInteger, loOk, hiOk, lt_irrefl]
  · simp [validateC, rangeCheck, rangeMeasure, isInteger, loOk, hiOk, hab, le_refl]

/-- Witness for C3: at `a = 17`, `b = 120` the boundary facts hold. -/
theorem claimC3_witness :
    validateC (.range (.number false) (some ((17 : Rat), false)) (some ((120 : Rat), true)))
      (.num 120) = [] :=
  (claimC3_range_boundaries 17 120 (by norm_num)).2.2.2

/-- C4: for the schema with `email: string.email`, input
`email = "not-an-email"` yields Invalid with exactly one
format-violation and `email = "a@b.com"` yields Valid; the email check
requires a string first, then exactly one `@` with a non-empty local
part and a non-empty domain part containing at least one `.`. -/
theorem claimC4_email_format :
    validate emailSchemaV (.map [("email", .str "not-an-email")]) =
        .invalid [⟨[.field "email"], .formatViolation, "string.email", .str "not-an-email"⟩]
      ∧ validate emailSchemaV (.map [("email", .str "a@b.com")]) =
          .valid (.map [("email", .str "a@b.com")])
      ∧ (∀ v : Value, allowsC (.stringFormat .email) v = true ↔
          ∃ s, v = .str s ∧ s.toList.count '@' = 1 ∧ emailLocalPart s ≠ []
            ∧ emailDomainPart s ≠ [] ∧ '.' ∈ emailDomainPart s) := by
  refine ⟨by rfl, by rfl, ?_⟩
  intro v
  cases v with
  | str s =>
      simp only [allowsC, formatCheck, emailCheck, Bool.and_eq_true, beq_iff_eq,
        Bool.not_eq_true', List.isEmpty_eq_false, Value.str.injEq]
      constructor
      · rintro ⟨⟨⟨h1, h2⟩, h3⟩, h4⟩
        exact ⟨s, rfl, h1, h2, h3, List.elem_iff.mp h4⟩
      · rintro ⟨t, rfl, h1, h2, h3, h4⟩
        exact ⟨⟨⟨h1, h2⟩, h3⟩, List.elem_iff.mpr h4⟩
  | null => simp [allowsC, formatCheck]
  | bool b => simp [allowsC, formatCheck]
  | num q => simp [allowsC, formatCheck]
  | seq xs => simp [allowsC, formatCheck]
  | map fs => simp [allowsC, formatCheck]

/-- C5: for the schema with `status: 'pending'|'active'|'inactive'`,
input `status = "completed"` yields Invalid with exactly one
union-exhausted violation (listing all alternatives) and
`status = "active"` yields Valid; union membership is decided by strict
equality against each literal alternative, with no coercion. -/
theorem claimC5_union_literals :
    validate statusSchemaV (.map [("status", .str "completed")]) =
        .invalid [⟨[.field "status"], .unionExhausted,
          "'pending' | 'active' | 'inactive'", .str "completed"⟩]
      ∧ validate statusSchemaV (.map [("status", .str "active")]) =
          .valid (.map [("status", .str "active")])
      ∧ (∀ v : Value, allowsC statusUnion v = true ↔
          (v = .str "pending" ∨ v = .str "active" ∨ v = .str "inactive")) := by
  refine ⟨by rfl, by rfl, ?_⟩
  intro v
  cases v with
  | str s => simp [statusUnion, allowsC, allowsAny, litCheck]
  | null => simp [statusUnion, allowsC, allowsAny, litCheck]
  | bool b => simp [statusUnion, allowsC, allowsAny, litCheck]
  | num q => simp [statusUnion, allowsC, allowsAny, litCheck]
  | seq xs => simp [statusUnion, allowsC, allowsAny, litCheck]
  | map fs => simp [statusUnion, allowsC, allowsAny, litCheck]

/-- C6: for a schema with required `name` and optional `bio`, the empty
object yields Invalid with exactly one missing-required-field violation
at path `["name"]` (and none for `bio`); in general, removing an
all-optional field from a cleanly-validating input keeps it valid, and
supplying a declared field with a value violating its inner constraint
still fails. -/
theorem claimC6_optional_fields :
    validate bioSchemaV (.map []) =
        .invalid [⟨[.field "name"], .missingRequiredField, "string", .null⟩]
      ∧ (∀ (fl : FieldList) (f : String) (fs : List (String × Value)),
          allOptional fl f = true → validateFields fl fs = [] →
            validateFields fl (removeField f fs) = [])
      ∧ (∀ (fl : FieldList) (f : String) (o : Bool) (c : CompiledValidator)
          (fs : List (String × Value)) (x : Value),
          specLookup f fl = some (o, c) → lookupField f fs = some x →
            validateV c x ≠ [] → validateFields fl fs ≠ []) :=
  ⟨by rfl,
   fun fl f fs hopt hval => validateFields_removeField f fl fs hopt hval,
   fun fl f o c fs x hspec hx hbad => validateFields_violating f fl o c fs x hspec hx hbad⟩

/-- Witness for C6: dropping the optional `bio` from a valid input keeps
it valid. -/
theorem claimC6_witness :
    validateFields bioFields
      (removeField "bio" [("name", Value.str "Ada"), ("bio", Value.str "x")]) = [] :=
  claimC6_optional_fields.2.1 bioFields "bio"
    [("name", Value.str "Ada"), ("bio", Value.str "x")] (by rfl) (by rfl)

/-- C7: `validate` never raises for a data-shape mismatch: for every
validator and every input it returns a value — `Valid`, or `Invalid`
carrying a non-empty structured diagnostics report. -/
theorem claimC7_validate_total_result (v : CompiledValidator) (x : Value) :
    validate v x = .valid x
      ∨ ∃ report, validate v x = .invalid report ∧ report ≠ [] := by
  unfold validate
  cases hv : validateV v x with
  | nil => exact Or.inl rfl
  | cons a t => exact Or.inr ⟨a :: t, rfl, by simp⟩

/-- C8: compilation is deterministic in behavior — two validators
compiled from the same SchemaDescription make the same accept/reject
decision and produce the same violations on every input. -/
theorem claimC8_compile_deterministic (s : SchemaDescription)
    (v1 v2 : CompiledValidator) (h1 : compile s = .ok v1)
    (h2 : compile s = .ok v2) (x : Value) :
    allows v1 x = allows v2 x ∧ validate v1 x = validate v2 x := by
  rw [h1] at h2
  cases h2
  exact ⟨rfl, rfl⟩

/-- Witness for C8: the demo's user schema compiled twice behaves
identically on a concrete input. -/
theorem claimC8_witness :
    allows UserSchemaV validUserV = allows UserSchemaV validUserV
      ∧ validate UserSchemaV validUserV = validate UserSchemaV validUserV :=
  claimC8_compile_deterministic UserSchemaDesc UserSchemaV UserSchemaV
    (by rfl) (by rfl) validUserV

/-- C9: validation is read-only: a validator can be reused across
unboundedly many calls — on any number of repetitions of the same input,
`allows` and `validate` give the same results as a single call. -/
theorem claimC9_validator_reuse (v : CompiledValidator) (x : Value) (n : Nat) :
    (List.replicate n x).map (fun y => allows v y) = List.replicate n (allows v x)
      ∧ (List.replicate n x).map (fun y => validate v y) =
          List.replicate n (validate v x) :=
  ⟨List.map_replicate, List.map_replicate⟩

/-- C10: the demo's `createUser` appends the raw `data` argument to the
users array and its failure branch fires only on a falsy parse result;
since the schema call returns a truthy value both on success (the data
object) and on failure (an errors object), `createUser` never throws
"Invalid user data" and appends even invalid input to the database. -/
theorem claimC10_createUser_never_rejects (users : List Value) (data : Value) :
    jsTruthy (arkCall UserSchemaV data) = true
      ∧ createUser users data = .ok (users ++ [data], arkCall UserSchemaV data) := by
  have ht : jsTruthy (arkCall UserSchemaV data) = true :=
    jsTruthy_arkCall_object _ data
  exact ⟨ht, by unfold createUser; simp [ht]⟩

end ArkSpec
